import Mathlib

/-!
# Shallow embedding of the drug-mention pipeline

This file embeds the normalization / mention-extraction / merge pipeline of
the repository (`src/main.py`, `src/utils/utils.py`) and proves properties of
it.  Pandas `DataFrame`s are embedded as lists of rows, Python `dict`s as
association lists with Python's insertion semantics (assignment to an existing
key replaces the value in place, a new key is appended at the end), and the
behaviour of library calls (`str.lower`, `unicodedata.normalize`,
`pandas.to_datetime`, ...) is embedded for the character and date shapes this
data set exercises.
-/

namespace ServierPipeline

/-! ## Python string primitives -/

/-- Python `str.lower` on one character, embedded for the character range this
data exercises: ASCII letters plus the accented Latin-1 capitals appearing in
the titles. Other characters (including `®` and `™`) are unchanged, as in
CPython. -/
def pyLowerChar (c : Char) : Char :=
  if 'A' ≤ c && c ≤ 'Z' then Char.ofNat (c.toNat + 32)
  else if c = 'Â' then 'â'
  else if c = 'É' then 'é'
  else if c = 'Ñ' then 'ñ'
  else c

/-- Python `str.lower`. -/
def pyLower (s : String) : String :=
  String.mk (s.data.map pyLowerChar)

/-- Characters stripped by Python `str.strip()` (ASCII whitespace; the data
contains no exotic Unicode whitespace). -/
def isPySpace (c : Char) : Bool :=
  c = ' ' || c = '\t' || c = '\n' || c = '\r' || c = '\x0b' || c = '\x0c'

/-- Python `str.strip()`: drop leading and trailing whitespace. -/
def pyStrip (s : String) : String :=
  String.mk (((s.data.dropWhile isPySpace).reverse.dropWhile isPySpace).reverse)

/-- Python `str.replace(old, new)` on character lists: replace non-overlapping
occurrences of `old` left to right.  (The pipeline only calls it with a
non-empty `old`; an empty `old` is treated as matching nothing.)  The `fuel`
argument only makes the recursion structural; it is called with the input
length, which the consumed-character count never exceeds. -/
def pyReplaceList (old repl : List Char) : Nat → List Char → List Char
  | _, [] => []
  | 0, s => s
  | fuel + 1, c :: rest =>
    if old ≠ [] ∧ old.isPrefixOf (c :: rest) then
      repl ++ pyReplaceList old repl fuel (rest.drop (old.length - 1))
    else
      c :: pyReplaceList old repl fuel rest

/-- Python `str.replace(old, new)`. -/
def pyReplace (s old repl : String) : String :=
  String.mk (pyReplaceList old.data repl.data s.data.length s.data)

/-- Canonical decomposition (NFD) of one character, embedding the rows of the
Unicode character database used by `unicodedata.normalize("NFD", ·)` for the
accented characters this data exercises; characters outside the table are
their own decomposition. -/
def nfdChar (c : Char) : List Char :=
  if c = 'â' then ['a', '̂'] else if c = 'Â' then ['A', '̂']
  else if c = 'é' then ['e', '́'] else if c = 'É' then ['E', '́']
  else if c = 'è' then ['e', '̀'] else if c = 'È' then ['E', '̀']
  else if c = 'ñ' then ['n', '̃'] else if c = 'Ñ' then ['N', '̃']
  else [c]

/-- Unicode general category `Mn` (nonspacing combining mark) membership, for
the combining marks produced by `nfdChar`.  Symbols such as `®` and `™` are
category `So`, not `Mn`. -/
def isMn (c : Char) : Bool :=
  c = '̀' || c = '́' || c = '̂' || c = '̃'

/-- Embeds `remove_accents` (utils.py): NFD-decompose, drop the combining marks,
keep the base letters. -/
def remove_accents (s : String) : String :=
  String.mk ((s.data.flatMap nfdChar).filter (fun c => !(isMn c)))

/-! ## DataFrame cells and the cell-wise normalizers -/

/-- A cell of a `DataFrame`: a textual value, or an opaque non-textual value
(number, null, ...) carrying a tag so that "passes through unchanged" is
expressible. -/
inductive Cell where
  | str : String → Cell
  | other : Nat → Cell
deriving DecidableEq, Repr

/-- Pandas `DataFrame.map`: apply a cell-wise function to every cell of the frame. -/
def dfMap (f : Cell → Cell) (df : List (List Cell)) : List (List Cell) :=
  df.map (fun row => row.map f)

/-- The `lambda s: g(s) if isinstance(s, str) else s` shape used by every
cell-wise normalizer. -/
def onStr (g : String → String) : Cell → Cell
  | .str s => .str (g s)
  | c => c

/-- Embeds `delete_chars` (utils.py): four successive `DataFrame.map` passes removing
the two mis-encoded byte-escape sequences, the trademark symbol `™`, and
finally the accents. -/
def delete_chars (df : List (List Cell)) : List (List Cell) :=
  let d1 := dfMap (onStr (fun s => pyReplace s "\\xc3\\xb1" "")) df
  let d2 := dfMap (onStr (fun s => pyReplace s "\\xc3\\x28" "")) d1
  let d3 := dfMap (onStr (fun s => pyReplace s "™" "")) d2
  dfMap (onStr remove_accents) d3

/-- Embeds `lower_strip_df` (utils.py): `s.lower().strip()` on every textual cell. -/
def lower_strip_df (df : List (List Cell)) : List (List Cell) :=
  dfMap (onStr (fun s => pyStrip (pyLower s))) df

/-- The per-cell transform the pipeline (`normalize_dfs`) actually applies to a
textual cell of a non-date column: lowercase and trim first, then remove the
controlled substrings, then remove the accents. -/
def codeNormalizeCell : Cell → Cell
  | .str s =>
      .str (remove_accents
        (pyReplace (pyReplace (pyReplace (pyStrip (pyLower s))
          "\\xc3\\xb1" "") "\\xc3\\x28" "") "™" ""))
  | c => c

/-- The normalization formula as the specification (§4.1) writes it:
`lowercase(strip(remove_controlled_substrings(remove_diacritics(value))))`,
with diacritic removal innermost and lowercasing/trimming last. -/
def specNormalizeCell : Cell → Cell
  | .str s =>
      .str (pyLower (pyStrip
        (pyReplace (pyReplace (pyReplace (remove_accents s)
          "\\xc3\\xb1" "") "\\xc3\\x28" "") "™" "")))
  | c => c

/-! ## Date normalization (`format_date`) -/

/-- A parsed calendar date. -/
structure PDate where
  year : Nat
  month : Nat
  day : Nat
deriving DecidableEq, Repr

/-- Zero-pad a month/day to two digits. -/
def pad2 (n : Nat) : String :=
  if n < 10 then "0" ++ toString n else toString n

/-- How a midnight `datetime64` renders under `astype(str)`: `YYYY-MM-DD`. -/
def renderDate (d : PDate) : String :=
  toString d.year ++ "-" ++ pad2 d.month ++ "-" ++ pad2 d.day

/-- Split a character list at every occurrence of the separator. -/
def splitCharsOn (sep : Char) : List Char → List Char → List (List Char)
  | [], cur => [cur.reverse]
  | c :: rest, cur =>
    if c = sep then cur.reverse :: splitCharsOn sep rest []
    else splitCharsOn sep rest (c :: cur)

/-- Split a string on a one-character separator (`str.split(sep)`). -/
def splitOnChar (sep : Char) (s : String) : List String :=
  (splitCharsOn sep s.data []).map String.mk

/-- The value of a decimal digit. -/
def decDigit? (c : Char) : Option Nat :=
  if '0' ≤ c && c ≤ '9' then some (c.toNat - '0'.toNat) else none

/-- Parse a nonempty all-digit token as a natural number. -/
def parseNat? (s : String) : Option Nat :=
  if s.data.isEmpty then none
  else
    s.data.foldl
      (fun acc c =>
        match acc, decDigit? c with
        | some n, some d => some (n * 10 + d)
        | _, _ => none)
      (some 0)

/-- English month names recognized by the permissive date parser. -/
def monthTable : List (String × Nat) :=
  [("january", 1), ("february", 2), ("march", 3), ("april", 4), ("may", 5),
   ("june", 6), ("july", 7), ("august", 8), ("september", 9), ("october", 10),
   ("november", 11), ("december", 12)]

/-- Look a month name up, case-insensitively. -/
def monthFromName (s : String) : Option Nat :=
  (monthTable.find? (fun p => p.1 = pyLower s)).map (fun p => p.2)

/-- Parse `YYYY<sep>MM<sep>DD` (ISO dashes or the dotted variant). -/
def parseYMD (sep : Char) (s : String) : Option PDate :=
  match splitOnChar sep s with
  | [y, m, d] => do
    let yn ← parseNat? y
    let mn ← parseNat? m
    let dn ← parseNat? d
    if y.length = 4 && 1 ≤ mn && mn ≤ 12 && 1 ≤ dn && dn ≤ 31 then
      some ⟨yn, mn, dn⟩
    else none
  | _ => none

/-- Parse a slash date. Pandas' default (`dayfirst=False`) reads the first
field as the month whenever it can denote one, falling back to day-first only
when the first field exceeds 12. -/
def parseSlash (s : String) : Option PDate :=
  match splitOnChar '/' s with
  | [a, b, y] => do
    let an ← parseNat? a
    let bn ← parseNat? b
    let yn ← parseNat? y
    if 1 ≤ an && an ≤ 12 && 1 ≤ bn && bn ≤ 31 then some ⟨yn, an, bn⟩
    else if 1 ≤ bn && bn ≤ 12 && 1 ≤ an && an ≤ 31 then some ⟨yn, bn, an⟩
    else none
  | _ => none

/-- Parse a free-text `MonthName D, YYYY` date. -/
def parseMonthNameDate (s : String) : Option PDate :=
  match splitOnChar ' ' s with
  | [m, d, y] => do
    let mn ← monthFromName m
    let dn ← parseNat? (pyReplace d "," "")
    let yn ← parseNat? y
    if 1 ≤ dn && dn ≤ 31 then some ⟨yn, mn, dn⟩ else none
  | _ => none

/-- Embedded dependency: one element of `pandas.to_datetime(col, format="mixed")`
for the date shapes this repository's data and tests exercise (ISO, slash,
dotted, month-name), with the library's default month-first reading of
ambiguous slash dates (`dayfirst=False`).  An unparseable value is `none`
(the library raises). -/
def to_datetime_mixed (s : String) : Option PDate :=
  if (splitOnChar '-' s).length = 3 then parseYMD '-' s
  else if (splitOnChar '/' s).length = 3 then parseSlash s
  else if (splitOnChar '.' s).length = 3 then parseYMD '.' s
  else parseMonthNameDate s

/-- Embeds `format_date` (utils.py) on the date column: parse every value with the
mixed-format strategy and re-render it via `astype(str)`; `none` models the
run aborting on an unparseable value. -/
def format_date (col : List String) : Option (List String) :=
  col.mapM (fun s => (to_datetime_mixed s).map renderDate)

/-! ## Publication consolidation (`consolidate_pubmed_df`) -/

/-- A publication row as it reaches `consolidate_pubmed_df`: the `id` is a
string column that may have missing (NaN) cells. -/
structure PubRawRow where
  id : Option String
  title : String
  date_mention : String
  journal : String
deriving DecidableEq, Repr

/-- A publication row after the integer coercion of `id`. -/
structure PubIdRow where
  id : Int
  title : String
  date_mention : String
  journal : String
deriving DecidableEq, Repr

/-- Python `int(s)` as invoked by `astype("int")` on a string cell: optional
sign and decimal digits, surrounding whitespace ignored; anything else fails. -/
def pyInt? (s : String) : Option Int :=
  match (pyStrip s).data with
  | '-' :: rest => (parseNat? (String.mk rest)).map (fun n => -(n : Int))
  | cs => (parseNat? (String.mk cs)).map (fun n => (n : Int))

/-- The row filter `df[df["id"].str.strip() != ""]`: a missing id compares
unequal to `""` (NaN ≠ "" is True elementwise), so it is kept; a present id is
kept iff it is nonblank after stripping. -/
def pubKept (rows : List PubRawRow) : List PubRawRow :=
  rows.filter (fun r =>
    match r.id with
    | some s => !(pyStrip s == "")
    | none => true)

/-- The column coercion `astype("int")` over the kept rows: every id must be a
present, integer-parseable string, otherwise the conversion raises
(`.error`).  Other columns are carried over unchanged. -/
def coercePubRows : List PubRawRow → Except String (List PubIdRow)
  | [] => .ok []
  | r :: rest =>
    match r.id.bind pyInt? with
    | some n =>
        (coercePubRows rest).map
          (fun l => { id := n, title := r.title, date_mention := r.date_mention,
                      journal := r.journal } :: l)
    | none => .error "ValueError"

/-- Embeds `consolidate_pubmed_df` (utils.py): drop the rows whose id column compares
equal to `""` after stripping, then coerce the remaining ids to integers. -/
def consolidate_pubmed_df (rows : List PubRawRow) : Except String (List PubIdRow) :=
  coercePubRows (pubKept rows)

/-! ## Clinical-trial consolidation (`consolidate_clinical_trials_df`) -/

/-- A clinical-trial row as it reaches consolidation (post renaming:
`scientific_title` is already `title`, `date` is already `date_mention`). -/
structure TrialRow where
  title : String
  date_mention : String
  article_type : String
  id : String
  journal : String
deriving DecidableEq, Repr

/-- The composite grouping key `(title, date_mention, article_type)`. -/
def ctKey (r : TrialRow) : String × String × String :=
  (r.title, r.date_mention, r.article_type)

/-- Lexicographic `≤` on character lists (code-point order). -/
def charsLe : List Char → List Char → Bool
  | [], _ => true
  | _ :: _, [] => false
  | a :: as, b :: bs =>
    if a.toNat < b.toNat then true
    else if b.toNat < a.toNat then false
    else charsLe as bs

/-- Lexicographic `≤` on strings. -/
def strLe (a b : String) : Bool :=
  charsLe a.data b.data

/-- Lexicographic `≤` on grouping keys (pandas sorts group keys). -/
def keyLe (a b : String × String × String) : Bool :=
  if a.1 = b.1 then
    (if a.2.1 = b.2.1 then strLe a.2.2 b.2.2 else strLe a.2.1 b.2.1)
  else strLe a.1 b.1

/-- Insert into a `le`-sorted list, keeping it sorted. -/
def insertLe {α : Type} (le : α → α → Bool) (x : α) : List α → List α
  | [] => [x]
  | y :: rest => if le x y then x :: y :: rest else y :: insertLe le x rest

/-- Insertion sort by a boolean `≤`. -/
def sortLe {α : Type} (le : α → α → Bool) : List α → List α
  | [] => []
  | x :: rest => insertLe le x (sortLe le rest)

/-- The single output row for group key `k`, built from the first row `r0` of
the group: the key columns come from `k`, and `agg("first")` keeps `r0`'s
`id` and `journal`. -/
def groupRow (k : String × String × String) (r0 : TrialRow) : TrialRow :=
  { title := k.1, date_mention := k.2.1, article_type := k.2.2,
    id := r0.id, journal := r0.journal }

/-- Embeds `consolidate_clinical_trials_df` (utils.py): pandas
`groupby(["title","date_mention","article_type"], as_index=False).agg(id="first", journal="first")`:
one output row per distinct key, in sorted key order (`sort=True` default),
keeping the first encountered `id` and `journal` of each group. -/
def consolidate_clinical_trials_df (rows : List TrialRow) : List TrialRow :=
  let keys := (rows.map ctKey).dedup
  let sortedKeys := sortLe keyLe keys
  sortedKeys.filterMap (fun k =>
    (rows.find? (fun r => decide (ctKey r = k))).map (groupRow k))

/-! ## Python dictionaries as association lists -/

/-- A Python `dict` with string keys: an association list in insertion order. -/
abbrev Dict (α : Type) := List (String × α)

/-- Python dict lookup `d[k]`: first (and, keys being unique in a real dict, only)
binding of `k`. -/
def dictGet? {α : Type} : Dict α → String → Option α
  | [], _ => none
  | (k', v) :: rest, k => if k' = k then some v else dictGet? rest k

/-- Python `k in d`: the list of keys. -/
def dictKeys {α : Type} (d : Dict α) : List String :=
  d.map (fun p => p.1)

/-- Python dict assignment `d[k] = v`: replace the value in place if the key is present
(Python keeps the original key object and position), append otherwise. -/
def dictAssign {α : Type} : Dict α → String → α → Dict α
  | [], k, v => [(k, v)]
  | (k', v') :: rest, k, v =>
    if k' = k then (k', v) :: rest else (k', v') :: dictAssign rest k v

/-! ## Mention extraction (`find_mentions_in_publications`) -/

/-- A normalized publication/trial row as it reaches the mention search. -/
structure MRow where
  id : String
  title : String
  date_mention : String
  journal : String
deriving DecidableEq, Repr

/-- A drug row: `drug` name and `atccode`. -/
structure DrugRow where
  drug : String
  atccode : String
deriving DecidableEq, Repr

/-- A recorded mention `{publication_id, title, date_mention, journal}`. -/
structure Mention where
  publication_id : String
  title : String
  date_mention : String
  journal : String
deriving DecidableEq, Repr

/-- The `{date_mention, journal}` projection of a mention. -/
structure JournalMention where
  date_mention : String
  journal : String
deriving DecidableEq, Repr

/-- The `pub_type` argument: the dynamic key under which the mention list is
stored. -/
inductive PubType where
  | pubmed
  | clinical_trials
deriving DecidableEq, Repr

/-- A drug's entry of the mention graph.  The Python entry is a dict with a
`code` key, at most one of the dynamic keys `pubmed` / `clinical_trials`
(absent key = `none`), and a `journal` key. -/
structure Entry where
  code : String
  pubmed : Option (List Mention)
  clinical_trials : Option (List Mention)
  journal : List JournalMention
deriving DecidableEq, Repr

/-- The mention list stored under the dynamic key `pt`, when present. -/
def Entry.mentionsAt (e : Entry) : PubType → Option (List Mention)
  | .pubmed => e.pubmed
  | .clinical_trials => e.clinical_trials

/-- Contiguous containment of `needle` in `hay`, by scanning every suffix. -/
def listInfix (needle : List Char) : List Char → Bool
  | [] => needle.isEmpty
  | c :: t => needle.isPrefixOf (c :: t) || listInfix needle t

/-- Python `drug in title`: contiguous substring containment. -/
def pyContains (hay needle : String) : Bool :=
  listInfix needle.data hay.data

/-- The mention record appended for a matching row. -/
def mkMention (p : MRow) : Mention :=
  ⟨p.id, p.title, p.date_mention, p.journal⟩

/-- The journal record appended for a matching row. -/
def mkJournalMention (p : MRow) : JournalMention :=
  ⟨p.date_mention, p.journal⟩

/-- The `(date_mention, journal)` identifier of a journal record. -/
def jmPair (j : JournalMention) : String × String :=
  (j.date_mention, j.journal)

/-- One drug's entry: the inner `for pub_row in pub_df` loop appends a mention
and a journal record for exactly the rows whose title contains the drug name,
in row order — i.e. it maps over the filtered rows — and the entry stores the
drug's `atccode` and the two lists, the mention list under the dynamic
`pub_type` key. -/
def entryFor (dr : DrugRow) (pubs : List MRow) (pt : PubType) : Entry :=
  let hits := pubs.filter (fun p => pyContains p.title dr.drug)
  let pub_mention := hits.map mkMention
  let journal_mention := hits.map mkJournalMention
  match pt with
  | .pubmed => ⟨dr.atccode, some pub_mention, none, journal_mention⟩
  | .clinical_trials => ⟨dr.atccode, none, some pub_mention, journal_mention⟩

/-- Embeds `find_mentions_in_publications` (utils.py): iterate the drugs in order and
assign each one's entry into `result_dict`. -/
def find_mentions_in_publications
    (drugs : List DrugRow) (pubs : List MRow) (pt : PubType) : Dict Entry :=
  drugs.foldl (fun result_dict dr => dictAssign result_dict dr.drug (entryFor dr pubs pt)) []

/-! ## Graph merge (`merge_dicts`) -/

/-- The `seen`-set deduplication loop of `merge_dicts` (utils.py lines
230-236): keep an element iff its `(date_mention, journal)` pair has not been
seen yet. -/
def dedupJournalLoop (seen : List (String × String)) :
    List JournalMention → List JournalMention
  | [] => []
  | e :: rest =>
    if (e.date_mention, e.journal) ∈ seen then dedupJournalLoop seen rest
    else e :: dedupJournalLoop ((e.date_mention, e.journal) :: seen) rest

/-- The update `merge_dicts` performs on the entry behind `merged_dict[key]`
for `value` from `dict2`: overwrite `clinical_trials` when `value` carries
one, then replace `journal` by the deduplicated concatenation. -/
def mergeStep (e v : Entry) : Entry :=
  let e1 :=
    match v.clinical_trials with
    | some ms => { e with clinical_trials := some ms }
    | none => e
  { e1 with journal := dedupJournalLoop [] (e1.journal ++ v.journal) }

/-- The `for key, value in dict2.items()` loop.  `merged` and `d1a` are the
current values of `merged_dict` and `dict1`: `merged_dict = dict1.copy()` is a
*shallow* copy, so the entry objects are shared and every in-place entry
update is applied to both.  A key of `dict2` absent from `merged_dict` raises
`KeyError` (`.error key`). -/
def merge_loop : Dict Entry → Dict Entry → List (String × Entry) →
    Except String (Dict Entry × Dict Entry)
  | merged, d1a, [] => .ok (merged, d1a)
  | merged, d1a, (k, v) :: rest =>
    match dictGet? merged k with
    | none => .error k
    | some e =>
        merge_loop (dictAssign merged k (mergeStep e v))
          (dictAssign d1a k (mergeStep e v)) rest

/-- Embeds `merge_dicts` (utils.py): returns the merged dict together with `dict1` as
it stands after the call (the shallow copy makes the entry mutations visible
through `dict1`). -/
def merge_dicts (dict1 dict2 : Dict Entry) :
    Except String (Dict Entry × Dict Entry) :=
  merge_loop dict1 dict1 dict2

/-! ## Dictionary lemmas -/

theorem dictGet?_assign_self {α : Type} (d : Dict α) (k : String) (v : α) :
    dictGet? (dictAssign d k v) k = some v := by
  induction d with
  | nil => simp [dictAssign, dictGet?]
  | cons p rest ih =>
    obtain ⟨k', v'⟩ := p
    by_cases h : k' = k <;> simp [dictAssign, dictGet?, h, ih]

theorem dictGet?_assign_ne {α : Type} (d : Dict α) (k' k : String) (v : α)
    (h : k' ≠ k) : dictGet? (dictAssign d k' v) k = dictGet? d k := by
  induction d with
  | nil => simp [dictAssign, dictGet?, h]
  | cons p rest ih =>
    obtain ⟨k0, v0⟩ := p
    by_cases h0 : k0 = k'
    · subst h0; simp [dictAssign, dictGet?, h]
    · simp [dictAssign, dictGet?, h0]
      by_cases h1 : k0 = k <;> simp [h1, ih]

@[simp] theorem dictKeys_nil {α : Type} : dictKeys ([] : Dict α) = [] := rfl

@[simp] theorem dictKeys_cons {α : Type} (k : String) (v : α) (d : Dict α) :
    dictKeys ((k, v) :: d) = k :: dictKeys d := rfl

theorem dictAssign_cons_eq {α : Type} (k0 k : String) (v0 v : α) (rest : Dict α)
    (h : k0 = k) : dictAssign ((k0, v0) :: rest) k v = (k0, v) :: rest := by
  simp [dictAssign, h]

theorem dictAssign_cons_ne {α : Type} (k0 k : String) (v0 v : α) (rest : Dict α)
    (h : k0 ≠ k) :
    dictAssign ((k0, v0) :: rest) k v = (k0, v0) :: dictAssign rest k v := by
  simp [dictAssign, h]

theorem mem_dictKeys_assign {α : Type} (d : Dict α) (k a : String) (v : α) :
    a ∈ dictKeys (dictAssign d k v) ↔ a ∈ dictKeys d ∨ a = k := by
  induction d with
  | nil => simp [dictAssign, eq_comm]
  | cons p rest ih =>
    obtain ⟨k0, v0⟩ := p
    by_cases h0 : k0 = k
    · rw [dictAssign_cons_eq _ _ _ _ _ h0]
      subst h0
      simp only [dictKeys_cons, List.mem_cons]
      tauto
    · rw [dictAssign_cons_ne _ _ _ _ _ h0]
      simp only [dictKeys_cons, List.mem_cons, ih]
      tauto

theorem dictGet?_isSome_iff {α : Type} (d : Dict α) (k : String) :
    (dictGet? d k).isSome ↔ k ∈ dictKeys d := by
  induction d with
  | nil => simp [dictGet?]
  | cons p rest ih =>
    obtain ⟨k0, v0⟩ := p
    by_cases h0 : k0 = k
    · simp [dictGet?, h0]
    · simp only [dictGet?, if_neg h0, dictKeys_cons, List.mem_cons, ih]
      exact ⟨fun h => Or.inr h, fun h => h.resolve_left (fun he => h0 he.symm)⟩

theorem dictKeys_assign_mem {α : Type} (d : Dict α) (k : String) (v : α)
    (h : k ∈ dictKeys d) : dictKeys (dictAssign d k v) = dictKeys d := by
  induction d with
  | nil => simp at h
  | cons p rest ih =>
    obtain ⟨k0, v0⟩ := p
    by_cases h0 : k0 = k
    · rw [dictAssign_cons_eq _ _ _ _ _ h0]
      simp
    · simp only [dictKeys_cons, List.mem_cons] at h
      rcases h with h | h
      · exact absurd h.symm h0
      · rw [dictAssign_cons_ne _ _ _ _ _ h0]
        simp only [dictKeys_cons, ih h]

theorem dictKeys_assign_nodup {α : Type} (d : Dict α) (k : String) (v : α)
    (h : (dictKeys d).Nodup) : (dictKeys (dictAssign d k v)).Nodup := by
  induction d with
  | nil => simp [dictAssign]
  | cons p rest ih =>
    obtain ⟨k0, v0⟩ := p
    simp only [dictKeys_cons, List.nodup_cons] at h
    by_cases h0 : k0 = k
    · rw [dictAssign_cons_eq _ _ _ _ _ h0]
      simp only [dictKeys_cons, List.nodup_cons]
      exact h
    · rw [dictAssign_cons_ne _ _ _ _ _ h0]
      simp only [dictKeys_cons, List.nodup_cons]
      refine ⟨fun hc => ?_, ih h.2⟩
      rcases (mem_dictKeys_assign rest k k0 v).mp hc with hc | hc
      · exact h.1 hc
      · exact h0 hc

theorem dictGet?_eq_some_of_mem {α : Type} (d : Dict α) (k : String) (v : α)
    (hnd : (dictKeys d).Nodup) (h : (k, v) ∈ d) : dictGet? d k = some v := by
  induction d with
  | nil => simp at h
  | cons p rest ih =>
    obtain ⟨k0, v0⟩ := p
    simp only [dictKeys_cons, List.nodup_cons] at hnd
    rcases List.mem_cons.mp h with h | h
    · rw [show k0 = k from (Prod.mk.injEq .. ▸ h.symm).1,
        show v0 = v from (Prod.mk.injEq .. ▸ h.symm).2]
      simp [dictGet?]
    · by_cases h0 : k0 = k
      · subst h0
        exact absurd (List.mem_map_of_mem (fun p => p.1) h) hnd.1
      · simp [dictGet?, h0, ih hnd.2 h]

/-! ## Lemmas about `find_mentions_in_publications` -/

theorem fm_foldl_frame (pubs : List MRow) (pt : PubType) (k : String) :
    ∀ (drugs : List DrugRow) (acc : Dict Entry), (∀ dr ∈ drugs, dr.drug ≠ k) →
      dictGet? (drugs.foldl
        (fun a dr => dictAssign a dr.drug (entryFor dr pubs pt)) acc) k
        = dictGet? acc k := by
  intro drugs
  induction drugs with
  | nil => intro acc _; rfl
  | cons d rest ih =>
    intro acc h
    simp only [List.foldl_cons]
    rw [ih _ (fun dr hdr => h dr (List.mem_cons_of_mem d hdr)),
      dictGet?_assign_ne _ _ _ _ (h d (List.mem_cons_self d rest))]

theorem fm_get_of_nodup (pubs : List MRow) (pt : PubType) :
    ∀ (drugs : List DrugRow) (acc : Dict Entry),
      (drugs.map DrugRow.drug).Nodup → ∀ dr ∈ drugs,
      dictGet? (drugs.foldl
        (fun a dr => dictAssign a dr.drug (entryFor dr pubs pt)) acc) dr.drug
        = some (entryFor dr pubs pt) := by
  intro drugs
  induction drugs with
  | nil => intro acc _ dr h; simp at h
  | cons d rest ih =>
    intro acc hnd dr hdr
    simp only [List.map_cons, List.nodup_cons] at hnd
    simp only [List.foldl_cons]
    rcases List.mem_cons.mp hdr with h | h
    · subst h
      rw [fm_foldl_frame pubs pt dr.drug rest _
          (fun dr' hdr' hne => hnd.1 (hne ▸ List.mem_map_of_mem DrugRow.drug hdr')),
        dictGet?_assign_self]
    · exact ih _ hnd.2 dr h

theorem fm_provenance (pubs : List MRow) (pt : PubType) :
    ∀ (drugs : List DrugRow) (acc : Dict Entry) (k : String) (e : Entry),
      dictGet? (drugs.foldl
        (fun a dr => dictAssign a dr.drug (entryFor dr pubs pt)) acc) k = some e →
      (∃ dr ∈ drugs, dr.drug = k ∧ e = entryFor dr pubs pt) ∨ dictGet? acc k = some e := by
  intro drugs
  induction drugs with
  | nil => intro acc k e h; exact Or.inr h
  | cons d rest ih =>
    intro acc k e h
    simp only [List.foldl_cons] at h
    rcases ih _ k e h with h1 | h1
    · obtain ⟨dr, hdr, hk, he⟩ := h1
      exact Or.inl ⟨dr, List.mem_cons_of_mem d hdr, hk, he⟩
    · by_cases hk : d.drug = k
      · subst hk
        rw [dictGet?_assign_self] at h1
        exact Or.inl ⟨d, List.mem_cons_self d rest, rfl, (Option.some.injEq .. ▸ h1).symm⟩
      · rw [dictGet?_assign_ne _ _ _ _ hk] at h1
        exact Or.inr h1

theorem fm_mem_keys (pubs : List MRow) (pt : PubType) :
    ∀ (drugs : List DrugRow) (acc : Dict Entry) (k : String),
      k ∈ dictKeys (drugs.foldl
        (fun a dr => dictAssign a dr.drug (entryFor dr pubs pt)) acc) ↔
      k ∈ dictKeys acc ∨ ∃ dr ∈ drugs, dr.drug = k := by
  intro drugs
  induction drugs with
  | nil => intro acc k; simp
  | cons d rest ih =>
    intro acc k
    simp only [List.foldl_cons]
    rw [ih]
    rw [mem_dictKeys_assign]
    constructor
    · rintro ((h | h) | h)
      · exact Or.inl h
      · exact Or.inr ⟨d, List.mem_cons_self d rest, h.symm⟩
      · obtain ⟨dr, hdr, hk⟩ := h
        exact Or.inr ⟨dr, List.mem_cons_of_mem d hdr, hk⟩
    · rintro (h | ⟨dr, hdr, hk⟩)
      · exact Or.inl (Or.inl h)
      · rcases List.mem_cons.mp hdr with h | h
        · exact Or.inl (Or.inr (h ▸ hk.symm))
        · exact Or.inr ⟨dr, h, hk⟩

theorem fm_keys_nodup (pubs : List MRow) (pt : PubType) :
    ∀ (drugs : List DrugRow) (acc : Dict Entry), (dictKeys acc).Nodup →
      (dictKeys (drugs.foldl
        (fun a dr => dictAssign a dr.drug (entryFor dr pubs pt)) acc)).Nodup := by
  intro drugs
  induction drugs with
  | nil => intro acc h; exact h
  | cons d rest ih =>
    intro acc h
    exact ih _ (dictKeys_assign_nodup _ _ _ h)

/-! ## Lemmas about `merge_dicts` -/

theorem merge_loop_keys :
    ∀ (l : List (String × Entry)) (merged d1a m d1' : Dict Entry),
      merge_loop merged d1a l = .ok (m, d1') → dictKeys m = dictKeys merged := by
  intro l
  induction l with
  | nil =>
    intro merged d1a m d1' h
    obtain ⟨h1, _⟩ := Prod.mk.injEq .. ▸ Except.ok.injEq .. ▸ h
    rw [h1]
  | cons p rest ih =>
    intro merged d1a m d1' h
    obtain ⟨k, v⟩ := p
    simp only [merge_loop] at h
    cases hg : dictGet? merged k with
    | none => rw [hg] at h; exact absurd h (by simp)
    | some e =>
      rw [hg] at h
      rw [ih _ _ _ _ h]
      exact dictKeys_assign_mem _ _ _
        ((dictGet?_isSome_iff merged k).mp (by simp [hg]))

theorem merge_loop_ok :
    ∀ (l : List (String × Entry)) (merged d1a : Dict Entry),
      (∀ p ∈ l, p.1 ∈ dictKeys merged) →
      ∃ m d1', merge_loop merged d1a l = .ok (m, d1') := by
  intro l
  induction l with
  | nil => intro merged d1a _; exact ⟨merged, d1a, rfl⟩
  | cons p rest ih =>
    intro merged d1a h
    obtain ⟨k, v⟩ := p
    have hk : k ∈ dictKeys merged := h (k, v) (List.mem_cons_self _ _)
    obtain ⟨e, he⟩ := Option.isSome_iff_exists.mp ((dictGet?_isSome_iff merged k).mpr hk)
    have hkeys : dictKeys (dictAssign merged k (mergeStep e v)) = dictKeys merged :=
      dictKeys_assign_mem _ _ _ hk
    obtain ⟨m, d1', hm⟩ := ih (dictAssign merged k (mergeStep e v))
      (dictAssign d1a k (mergeStep e v))
      (fun p hp => hkeys ▸ h p (List.mem_cons_of_mem _ hp))
    refine ⟨m, d1', ?_⟩
    simp only [merge_loop, he]
    exact hm

theorem merge_loop_error :
    ∀ (l : List (String × Entry)) (merged d1a : Dict Entry),
      (∃ p ∈ l, p.1 ∉ dictKeys merged) →
      ∃ k', merge_loop merged d1a l = .error k' := by
  intro l
  induction l with
  | nil => intro merged d1a h; simp at h
  | cons p rest ih =>
    intro merged d1a h
    obtain ⟨k, v⟩ := p
    by_cases hk : k ∈ dictKeys merged
    · obtain ⟨e, he⟩ :=
        Option.isSome_iff_exists.mp ((dictGet?_isSome_iff merged k).mpr hk)
      have hkeys : dictKeys (dictAssign merged k (mergeStep e v)) = dictKeys merged :=
        dictKeys_assign_mem _ _ _ hk
      obtain ⟨q, hq, hqk⟩ := h
      rcases List.mem_cons.mp hq with hq1 | hq1
      · exact absurd (hq1 ▸ hk) hqk
      · obtain ⟨k', hk'⟩ := ih (dictAssign merged k (mergeStep e v))
          (dictAssign d1a k (mergeStep e v)) ⟨q, hq1, fun hc => hqk (hkeys ▸ hc)⟩
        refine ⟨k', ?_⟩
        simp only [merge_loop, he]
        exact hk'
    · refine ⟨k, ?_⟩
      have hg : dictGet? merged k = none := by
        cases hg : dictGet? merged k with
        | none => rfl
        | some e =>
          exact absurd ((dictGet?_isSome_iff merged k).mp (by simp [hg])) hk
      simp [merge_loop, hg]

theorem merge_loop_self :
    ∀ (l : List (String × Entry)) (s m d1' : Dict Entry),
      merge_loop s s l = .ok (m, d1') → d1' = m := by
  intro l
  induction l with
  | nil =>
    intro s m d1' h
    obtain ⟨h1, h2⟩ := Prod.mk.injEq .. ▸ Except.ok.injEq .. ▸ h
    rw [← h1, ← h2]
  | cons p rest ih =>
    intro s m d1' h
    obtain ⟨k, v⟩ := p
    simp only [merge_loop] at h
    cases hg : dictGet? s k with
    | none => rw [hg] at h; exact absurd h (by simp)
    | some e =>
      rw [hg] at h
      exact ih _ _ _ h

theorem merge_loop_frame :
    ∀ (l : List (String × Entry)) (merged d1a m d1' : Dict Entry) (k : String),
      (∀ p ∈ l, p.1 ≠ k) → merge_loop merged d1a l = .ok (m, d1') →
      dictGet? m k = dictGet? merged k := by
  intro l
  induction l with
  | nil =>
    intro merged d1a m d1' k _ h
    obtain ⟨h1, _⟩ := Prod.mk.injEq .. ▸ Except.ok.injEq .. ▸ h
    rw [h1]
  | cons p rest ih =>
    intro merged d1a m d1' k hne h
    obtain ⟨k0, v⟩ := p
    simp only [merge_loop] at h
    cases hg : dictGet? merged k0 with
    | none => rw [hg] at h; exact absurd h (by simp)
    | some e =>
      rw [hg] at h
      rw [ih _ _ _ _ k (fun p hp => hne p (List.mem_cons_of_mem _ hp)) h]
      exact dictGet?_assign_ne _ _ _ _ (hne (k0, v) (List.mem_cons_self _ _))

theorem merge_loop_get :
    ∀ (l : List (String × Entry)) (merged d1a m d1' : Dict Entry)
      (k : String) (v : Entry) (e : Entry),
      (l.map Prod.fst).Nodup → (k, v) ∈ l → dictGet? merged k = some e →
      merge_loop merged d1a l = .ok (m, d1') →
      dictGet? m k = some (mergeStep e v) := by
  intro l
  induction l with
  | nil => intro _ _ _ _ _ _ _ _ h _; simp at h
  | cons p rest ih =>
    intro merged d1a m d1' k v e hnd hmem hget h
    obtain ⟨k0, v0⟩ := p
    simp only [List.map_cons, List.nodup_cons] at hnd
    simp only [merge_loop] at h
    rcases List.mem_cons.mp hmem with hmem1 | hmem1
    · have hk0 : k0 = k := (Prod.mk.injEq .. ▸ hmem1.symm).1
      have hv0 : v0 = v := (Prod.mk.injEq .. ▸ hmem1.symm).2
      rw [hk0] at h hnd
      rw [hv0] at h
      rw [hget] at h
      rw [merge_loop_frame rest _ _ _ _ k
          (fun p hp hc => hnd.1 (hc ▸ List.mem_map_of_mem Prod.fst hp)) h]
      exact dictGet?_assign_self _ _ _
    · cases hg : dictGet? merged k0 with
      | none => rw [hg] at h; exact absurd h (by simp)
      | some e0 =>
        rw [hg] at h
        have hne : k0 ≠ k := by
          intro hc
          exact hnd.1 (hc ▸ List.mem_map_of_mem Prod.fst hmem1)
        exact ih _ _ _ _ k v e hnd.2 hmem1
          (by rw [dictGet?_assign_ne _ _ _ _ hne]; exact hget) h

/-! ## Lemmas about the journal deduplication loop -/

theorem dedupJournalLoop_not_seen :
    ∀ (l : List JournalMention) (seen : List (String × String)),
      ∀ j ∈ dedupJournalLoop seen l, jmPair j ∉ seen := by
  intro l
  induction l with
  | nil => intro seen j hj; simp [dedupJournalLoop] at hj
  | cons e rest ih =>
    intro seen j hj
    simp only [dedupJournalLoop] at hj
    by_cases hs : (e.date_mention, e.journal) ∈ seen
    · rw [if_pos hs] at hj
      exact ih seen j hj
    · rw [if_neg hs] at hj
      rcases List.mem_cons.mp hj with hj1 | hj1
      · rw [hj1]; exact hs
      · intro hc
        exact ih _ j hj1 (List.mem_cons_of_mem _ hc)

theorem dedupJournalLoop_pairs_nodup :
    ∀ (l : List JournalMention) (seen : List (String × String)),
      ((dedupJournalLoop seen l).map jmPair).Nodup := by
  intro l
  induction l with
  | nil => intro seen; simp [dedupJournalLoop]
  | cons e rest ih =>
    intro seen
    simp only [dedupJournalLoop]
    by_cases hs : (e.date_mention, e.journal) ∈ seen
    · rw [if_pos hs]; exact ih seen
    · rw [if_neg hs]
      simp only [List.map_cons, List.nodup_cons]
      refine ⟨fun hc => ?_, ih _⟩
      obtain ⟨j, hj, hjp⟩ := List.mem_map.mp hc
      exact dedupJournalLoop_not_seen rest _ j hj
        (hjp ▸ List.mem_cons_self _ _)

theorem mergeStep_journal (e v : Entry) :
    (mergeStep e v).journal = dedupJournalLoop [] (e.journal ++ v.journal) := by
  cases hc : v.clinical_trials <;> simp [mergeStep, hc]

/-! ## Generic helper lemmas -/

theorem mem_of_dictGet?_eq_some {α : Type} :
    ∀ (d : Dict α) (k : String) (v : α), dictGet? d k = some v → (k, v) ∈ d := by
  intro d
  induction d with
  | nil => intro k v h; simp [dictGet?] at h
  | cons p rest ih =>
    intro k v h
    obtain ⟨k0, v0⟩ := p
    by_cases h0 : k0 = k
    · rw [dictGet?, if_pos h0] at h
      have hv : v0 = v := Option.some.injEq .. ▸ h
      exact List.mem_cons.mpr (Or.inl (by rw [← h0, hv]))
    · rw [dictGet?, if_neg h0] at h
      exact List.mem_cons.mpr (Or.inr (ih k v h))

theorem perm_insertLe {α : Type} (le : α → α → Bool) (x : α) :
    ∀ l : List α, (insertLe le x l).Perm (x :: l) := by
  intro l
  induction l with
  | nil => exact List.Perm.refl _
  | cons y rest ih =>
    by_cases h : le x y
    · simp [insertLe, h]
    · rw [insertLe, if_neg h]
      exact (ih.cons y).trans (List.Perm.swap x y rest)

theorem perm_sortLe {α : Type} (le : α → α → Bool) :
    ∀ l : List α, (sortLe le l).Perm l := by
  intro l
  induction l with
  | nil => exact List.Perm.refl _
  | cons x rest ih =>
    exact (perm_insertLe le x (sortLe le rest)).trans (ih.cons x)

theorem filterMap_tag_eq_filter {α β : Type} (g : α → Option β) :
    ∀ l : List α,
      l.filterMap (fun a => (g a).map (fun _ => a)) = l.filter (fun a => (g a).isSome) := by
  intro l
  induction l with
  | nil => rfl
  | cons x rest ih =>
    cases hg : g x with
    | none => simp [List.filterMap_cons, List.filter_cons, hg, ih]
    | some b => simp [List.filterMap_cons, List.filter_cons, hg, ih]

theorem length_filterMap_of_isSome {α β : Type} (g : α → Option β) :
    ∀ l : List α, (∀ a ∈ l, (g a).isSome) → (l.filterMap g).length = l.length := by
  intro l
  induction l with
  | nil => intro _; rfl
  | cons x rest ih =>
    intro h
    obtain ⟨b, hb⟩ := Option.isSome_iff_exists.mp (h x (List.mem_cons_self _ _))
    simp [List.filterMap_cons, hb, ih (fun a ha => h a (List.mem_cons_of_mem _ ha))]

/-! ## Claim theorems -/

/-- C4 (counterexample): the pipeline does *not* compute the spec formula
`lowercase(strip(remove_controlled_substrings(remove_diacritics(v))))`.
On the cell `"A ™"` the code lowercases and trims first, so removing `™`
afterwards leaves a trailing space (`"a "`), while the spec's formula trims
last and yields `"a"`. -/
theorem normalize_order_counterexample :
    delete_chars (lower_strip_df [[Cell.str "A ™"]]) = [[Cell.str "a "]] ∧
    specNormalizeCell (Cell.str "A ™") = Cell.str "a" ∧
    delete_chars (lower_strip_df [[Cell.str "A ™"]])
      ≠ [[specNormalizeCell (Cell.str "A ™")]] := by
  refine ⟨rfl, rfl, by decide⟩

/-- C4 (amended): on every frame, the normalization pipeline computes
`remove_diacritics(remove_controlled_substrings(strip(lowercase(v))))` on each
textual cell — lowercasing/trimming happen *first* and accent removal last,
with controlled-substring stripping still before accent removal — and
non-textual (including null) cells pass through unchanged. -/
theorem normalize_pipeline_spec (df : List (List Cell)) :
    delete_chars (lower_strip_df df) = dfMap codeNormalizeCell df ∧
    ∀ n, codeNormalizeCell (Cell.other n) = Cell.other n := by
  constructor
  · simp only [delete_chars, lower_strip_df, dfMap, List.map_map]
    congr 1
    funext row
    simp only [Function.comp, List.map_map]
    congr 1
    funext c
    cases c <;> rfl
  · intro n
    rfl

/-- C5 (counterexample): normalizing the title `"DrugÂ® étude"` does not give
`"drug etude"`: the registered sign `®` is not in the removal list (only `™`
is), and NFD accent stripping turns `Â` into its base letter `a` rather than
deleting it. -/
theorem accent_example_counterexample :
    delete_chars (lower_strip_df [[Cell.str "DrugÂ® étude"]])
      ≠ [[Cell.str "drug etude"]] := by
  decide

/-- C5 (amended): the title `"DrugÂ® étude"` normalizes to `"druga® etude"`
— case lowered, diacritics dropped leaving the base letters, `®` kept. -/
theorem accent_example_spec :
    delete_chars (lower_strip_df [[Cell.str "DrugÂ® étude"]])
      = [[Cell.str "druga® etude"]] := rfl

/-- C6 (counterexample): `format_date` reads the ambiguous slash date
`"01/02/2022"` month-first (the pandas default), producing `"2022-01-02"`,
not the day-first `"2022-02-01"` the claim states. -/
theorem mixed_date_counterexample :
    format_date ["2022-01-01", "01/02/2022", "March 3, 2022"]
      = some ["2022-01-01", "2022-01-02", "2022-03-03"] ∧
    format_date ["2022-01-01", "01/02/2022", "March 3, 2022"]
      ≠ some ["2022-01-01", "2022-02-01", "2022-03-03"] := by
  refine ⟨rfl, by decide⟩

/-- C6 (amended): `format_date` re-renders each date string as canonical
`YYYY-MM-DD`, and on the mixed column the slash-separated form is read as
`MM/DD/YYYY`, giving `["2022-01-01", "2022-01-02", "2022-03-03"]` (matching
the repository's own `test_format_date`). -/
theorem mixed_date_spec :
    format_date ["2022-01-01", "01/02/2022", "March 3, 2022"]
      = some ["2022-01-01", "2022-01-02", "2022-03-03"] ∧
    format_date ["2022.04.04"] = some ["2022-04-04"] := by
  exact ⟨rfl, rfl⟩

/-- C7 (counterexample): a row whose id is non-blank but unparseable is not
silently excluded — the `astype("int")` coercion raises, aborting
consolidation instead of returning the empty row set. -/
theorem pubmed_unparseable_id_aborts :
    consolidate_pubmed_df [⟨some "abc", "title a", "2020-01-01", "journal a"⟩]
      = .error "ValueError" ∧
    consolidate_pubmed_df [⟨some "abc", "title a", "2020-01-01", "journal a"⟩]
      ≠ .ok [] := by
  refine ⟨rfl, fun h => ?_⟩
  rw [show consolidate_pubmed_df
      [⟨some "abc", "title a", "2020-01-01", "journal a"⟩]
      = Except.error "ValueError" from rfl] at h
  exact Except.noConfusion h

/-- C7 (amended): publication consolidation's filter drops exactly the rows
whose id is a present string that is blank after stripping; when every kept
row's id parses as an integer the result keeps those rows in order with the
id coerced and the other columns unchanged; and a kept row with a missing or
unparseable id makes the whole consolidation raise (`.error`), it is not
excluded or defaulted. -/
theorem consolidate_pubmed_spec (rows : List PubRawRow) :
    (∀ r, r ∈ pubKept rows ↔ r ∈ rows ∧ ∀ s, r.id = some s → pyStrip s ≠ "") ∧
    ((∀ r ∈ pubKept rows, (r.id.bind pyInt?).isSome) →
      ∃ l, consolidate_pubmed_df rows = .ok l ∧
        List.Forall₂ (fun (o : PubIdRow) (r : PubRawRow) =>
          o.title = r.title ∧ o.date_mention = r.date_mention ∧
          o.journal = r.journal ∧ r.id.bind pyInt? = some o.id) l (pubKept rows)) ∧
    ((∃ r ∈ pubKept rows, r.id.bind pyInt? = none) →
      consolidate_pubmed_df rows = .error "ValueError") := by
  have hok : ∀ l : List PubRawRow, (∀ r ∈ l, (r.id.bind pyInt?).isSome) →
      ∃ out, coercePubRows l = .ok out ∧
        List.Forall₂ (fun (o : PubIdRow) (r : PubRawRow) =>
          o.title = r.title ∧ o.date_mention = r.date_mention ∧
          o.journal = r.journal ∧ r.id.bind pyInt? = some o.id) out l := by
    intro l
    induction l with
    | nil => intro _; exact ⟨[], rfl, List.Forall₂.nil⟩
    | cons r rest ih =>
      intro h
      obtain ⟨n, hn⟩ := Option.isSome_iff_exists.mp (h r (List.mem_cons_self _ _))
      obtain ⟨out, hout, hfa⟩ := ih (fun a ha => h a (List.mem_cons_of_mem _ ha))
      refine ⟨⟨n, r.title, r.date_mention, r.journal⟩ :: out, ?_, ?_⟩
      · simp [coercePubRows, hn, hout, Except.map]
      · exact List.Forall₂.cons ⟨rfl, rfl, rfl, hn⟩ hfa
  have herr : ∀ l : List PubRawRow, (∃ r ∈ l, r.id.bind pyInt? = none) →
      coercePubRows l = .error "ValueError" := by
    intro l
    induction l with
    | nil => intro h; simp at h
    | cons r rest ih =>
      intro h
      cases hb : r.id.bind pyInt? with
      | none => simp [coercePubRows, hb]
      | some n =>
        obtain ⟨q, hq, hqn⟩ := h
        rcases List.mem_cons.mp hq with hq1 | hq1
        · rw [hq1] at hqn; rw [hqn] at hb; exact absurd hb (by simp)
        · simp [coercePubRows, hb, ih ⟨q, hq1, hqn⟩, Except.map]
  refine ⟨?_, fun h => hok _ h, fun h => herr _ h⟩
  intro r
  rw [pubKept, List.mem_filter]
  constructor
  · rintro ⟨hr, hp⟩
    refine ⟨hr, fun s hs => ?_⟩
    rw [hs] at hp
    simp only [Bool.not_eq_true', beq_eq_false_iff_ne, ne_eq] at hp
    exact hp
  · rintro ⟨hr, hp⟩
    refine ⟨hr, ?_⟩
    cases hid : r.id with
    | none => rfl
    | some s =>
      simp only [Bool.not_eq_true', beq_eq_false_iff_ne, ne_eq]
      exact hp s hid

/-- C7 (witness): on a small table with one blank id and two parseable ids,
consolidation succeeds, keeping the two nonblank rows with coerced ids. -/
theorem consolidate_pubmed_spec_witness :
    (∀ r ∈ pubKept [⟨some "1", "a", "2020-01-01", "ja"⟩,
        ⟨some " ", "b", "2020-01-01", "jb"⟩, ⟨some "3", "c", "2020-01-01", "jc"⟩],
      (r.id.bind pyInt?).isSome) ∧
    ∃ l, consolidate_pubmed_df [⟨some "1", "a", "2020-01-01", "ja"⟩,
        ⟨some " ", "b", "2020-01-01", "jb"⟩, ⟨some "3", "c", "2020-01-01", "jc"⟩] = .ok l ∧
      List.Forall₂ (fun (o : PubIdRow) (r : PubRawRow) =>
        o.title = r.title ∧ o.date_mention = r.date_mention ∧
        o.journal = r.journal ∧ r.id.bind pyInt? = some o.id) l
        (pubKept [⟨some "1", "a", "2020-01-01", "ja"⟩,
          ⟨some " ", "b", "2020-01-01", "jb"⟩, ⟨some "3", "c", "2020-01-01", "jc"⟩]) := by
  refine ⟨by decide, ?_⟩
  exact (consolidate_pubmed_spec _).2.1 (by decide)

/-- C8: clinical-trial consolidation groups rows by the composite key
`(title, date_mention, article_type)`: it never increases the row count; its
output keys are pairwise distinct (each multi-row group collapses to one
row); every input row's key survives; every output row carries the `id` and
`journal` of the *first* input row of its group; and when no two rows collide
on the composite key the row count is preserved exactly. -/
theorem consolidate_trials_spec (rows : List TrialRow) :
    (consolidate_clinical_trials_df rows).length ≤ rows.length ∧
    ((consolidate_clinical_trials_df rows).map ctKey).Nodup ∧
    (∀ r ∈ rows, ∃ r' ∈ consolidate_clinical_trials_df rows, ctKey r' = ctKey r) ∧
    (∀ r' ∈ consolidate_clinical_trials_df rows,
      ∃ r0, rows.find? (fun r => decide (ctKey r = ctKey r')) = some r0 ∧
        r'.id = r0.id ∧ r'.journal = r0.journal ∧ ctKey r0 = ctKey r') ∧
    ((rows.map ctKey).Nodup → (consolidate_clinical_trials_df rows).length = rows.length) := by
  have hperm : (sortLe keyLe ((rows.map ctKey).dedup)).Perm ((rows.map ctKey).dedup) :=
    perm_sortLe keyLe _
  have hmem_sorted : ∀ k, k ∈ sortLe keyLe ((rows.map ctKey).dedup) ↔ k ∈ rows.map ctKey := by
    intro k
    rw [hperm.mem_iff, List.mem_dedup]
  refine ⟨?_, ?_, ?_, ?_, ?_⟩
  · calc (consolidate_clinical_trials_df rows).length
        ≤ (sortLe keyLe ((rows.map ctKey).dedup)).length :=
          List.length_filterMap_le _ _
      _ = ((rows.map ctKey).dedup).length := hperm.length_eq
      _ ≤ (rows.map ctKey).length := (List.dedup_sublist _).length_le
      _ = rows.length := List.length_map _ _
  · rw [show consolidate_clinical_trials_df rows
        = (sortLe keyLe ((rows.map ctKey).dedup)).filterMap
            (fun k => (rows.find? (fun r => decide (ctKey r = k))).map (groupRow k)) from rfl,
      List.map_filterMap]
    have hc : ∀ k ∈ sortLe keyLe ((rows.map ctKey).dedup),
        ((rows.find? (fun r => decide (ctKey r = k))).map (groupRow k)).map ctKey
          = ((rows.find? (fun r => decide (ctKey r = k))).map (fun _ => k)) := by
      intro k _
      rw [Option.map_map]
      rfl
    rw [List.filterMap_congr hc, filterMap_tag_eq_filter]
    exact List.Nodup.filter _ (hperm.symm.nodup (List.nodup_dedup _))
  · intro r hr
    have hk : ctKey r ∈ sortLe keyLe ((rows.map ctKey).dedup) :=
      (hmem_sorted _).mpr (List.mem_map_of_mem ctKey hr)
    have hfind : (rows.find? (fun q => decide (ctKey q = ctKey r))).isSome := by
      rw [List.find?_isSome]
      exact ⟨r, hr, by simp⟩
    obtain ⟨r0, hr0⟩ := Option.isSome_iff_exists.mp hfind
    refine ⟨groupRow (ctKey r) r0, ?_, rfl⟩
    exact List.mem_filterMap.mpr ⟨ctKey r, hk, by rw [hr0]; rfl⟩
  · intro r' hr'
    obtain ⟨k, hk, hF⟩ := List.mem_filterMap.mp hr'
    obtain ⟨r0, hr0, hgr⟩ := Option.map_eq_some'.mp hF
    have hkey : ctKey r' = k := by rw [← hgr]; rfl
    refine ⟨r0, ?_, ?_, ?_, ?_⟩
    · rw [hkey]; exact hr0
    · rw [← hgr]; rfl
    · rw [← hgr]; rfl
    · rw [hkey]
      have hp := List.find?_some hr0
      exact of_decide_eq_true hp
  · intro hnd
    have hded : (rows.map ctKey).dedup = rows.map ctKey := List.dedup_eq_self.mpr hnd
    have hlen : (sortLe keyLe ((rows.map ctKey).dedup)).length = rows.length := by
      rw [hperm.length_eq, hded, List.length_map]
    rw [show consolidate_clinical_trials_df rows
        = (sortLe keyLe ((rows.map ctKey).dedup)).filterMap
            (fun k => (rows.find? (fun r => decide (ctKey r = k))).map (groupRow k)) from rfl,
      length_filterMap_of_isSome _ _ ?_, hlen]
    intro k hkmem
    obtain ⟨r, hr, hrk⟩ := List.mem_map.mp ((hmem_sorted k).mp hkmem)
    have : (rows.find? (fun q => decide (ctKey q = k))).isSome := by
      rw [List.find?_isSome]
      exact ⟨r, hr, by simp [hrk]⟩
    simpa using this

/-- C8 (witness): on a concrete three-row table with one colliding pair, the
consolidated output carries the first row's `id`/`journal` for the collapsed
group. -/
theorem consolidate_trials_spec_witness :
    (⟨"t", "d", "ct", "1", "ja"⟩ : TrialRow) ∈
      [(⟨"t", "d", "ct", "1", "ja"⟩ : TrialRow), ⟨"t", "d", "ct", "2", "jb"⟩,
        ⟨"s", "d", "ct", "3", "jc"⟩] ∧
    ∃ r' ∈ consolidate_clinical_trials_df
        [⟨"t", "d", "ct", "1", "ja"⟩, ⟨"t", "d", "ct", "2", "jb"⟩,
          ⟨"s", "d", "ct", "3", "jc"⟩],
      ctKey r' = ctKey (⟨"t", "d", "ct", "1", "ja"⟩ : TrialRow) := by
  refine ⟨by decide, ?_⟩
  exact (consolidate_trials_spec
    [⟨"t", "d", "ct", "1", "ja"⟩, ⟨"t", "d", "ct", "2", "jb"⟩,
      ⟨"s", "d", "ct", "3", "jc"⟩]).2.2.1 ⟨"t", "d", "ct", "1", "ja"⟩ (by decide)

/-- C1: for drug tables whose names are pairwise distinct (names are the drug
identity in the data model), every drug of the table appears as a key of the
result of `find_mentions_in_publications` with its `code` attached; its
mention list contains a mention for a record iff the drug's name is a
contiguous substring of the record's title (in record order); and when no
title contains the name both the mention list and the journal list are
empty. -/
theorem find_mentions_spec (drugs : List DrugRow) (pubs : List MRow) (pt : PubType)
    (hnd : (drugs.map DrugRow.drug).Nodup) :
    ∀ dr ∈ drugs, ∃ e,
      dictGet? (find_mentions_in_publications drugs pubs pt) dr.drug = some e ∧
      e.code = dr.atccode ∧
      ∃ ms, e.mentionsAt pt = some ms ∧
        ms = (pubs.filter (fun p => pyContains p.title dr.drug)).map mkMention ∧
        (∀ p ∈ pubs, pyContains p.title dr.drug = true ↔ mkMention p ∈ ms) ∧
        ((∀ p ∈ pubs, pyContains p.title dr.drug = false) →
          ms = [] ∧ e.journal = []) := by
  intro dr hdr
  refine ⟨entryFor dr pubs pt, fm_get_of_nodup pubs pt drugs [] hnd dr hdr, ?_, ?_⟩
  · cases pt <;> rfl
  · refine ⟨(pubs.filter (fun p => pyContains p.title dr.drug)).map mkMention,
      by cases pt <;> rfl, rfl, ?_, ?_⟩
    · intro p hp
      constructor
      · intro hc
        exact List.mem_map_of_mem mkMention (List.mem_filter.mpr ⟨hp, hc⟩)
      · intro hmem
        obtain ⟨q, hq, hqe⟩ := List.mem_map.mp hmem
        obtain ⟨hq1, hq2⟩ := List.mem_filter.mp hq
        have ht : q.title = p.title := congrArg Mention.title hqe
        rw [← ht]
        exact hq2
    · intro hall
      have hfil : pubs.filter (fun p => pyContains p.title dr.drug) = [] :=
        List.filter_eq_nil_iff.mpr (fun p hp => by rw [hall p hp]; exact Bool.false_ne_true)
      constructor
      · rw [hfil]; rfl
      · have hj : (entryFor dr pubs pt).journal
            = (pubs.filter (fun p => pyContains p.title dr.drug)).map mkJournalMention := by
          cases pt <;> rfl
        rw [hj, hfil]
        rfl

/-- C1 (witness): on a concrete two-drug table, the drug `"drug b"` with no
matching title is present with its code and empty lists. -/
theorem find_mentions_spec_witness :
    (([⟨"drug a", "a01"⟩, ⟨"drug b", "b02"⟩] : List DrugRow).map DrugRow.drug).Nodup ∧
    ∃ e, dictGet? (find_mentions_in_publications
        [⟨"drug a", "a01"⟩, ⟨"drug b", "b02"⟩]
        [⟨"1", "study on drug a", "2024-01-01", "journal a"⟩] .pubmed)
        (DrugRow.drug ⟨"drug b", "b02"⟩) = some e ∧
      e.code = "b02" ∧ ∃ ms, e.mentionsAt .pubmed = some ms ∧ ms = [] ∧ e.journal = [] := by
  refine ⟨by decide, ?_⟩
  obtain ⟨e, h1, h2, ms, h3, h4, h5, h6⟩ := find_mentions_spec
    [⟨"drug a", "a01"⟩, ⟨"drug b", "b02"⟩]
    [⟨"1", "study on drug a", "2024-01-01", "journal a"⟩] .pubmed (by decide)
    ⟨"drug b", "b02"⟩ (by decide)
  obtain ⟨hms, hj⟩ := h6 (by decide)
  exact ⟨e, h1, h2, ms, h3, hms, hj⟩

/-- C9: in every per-source graph produced by `find_mentions_in_publications`,
each entry's `journal` list is the element-wise `(date_mention, journal)`
projection of its mention list (same length, same order); and — second
conjunct, at a concrete input — such a pre-merge journal list can already
contain two equal `(date_mention, journal)` pairs, so deduplication cannot
have happened at extraction time. -/
theorem journal_projection_spec (drugs : List DrugRow) (pubs : List MRow) (pt : PubType) :
    (∀ k e, dictGet? (find_mentions_in_publications drugs pubs pt) k = some e →
      ∃ ms, e.mentionsAt pt = some ms ∧
        e.journal = ms.map (fun m => (⟨m.date_mention, m.journal⟩ : JournalMention))) ∧
    ∃ e, dictGet? (find_mentions_in_publications [⟨"d", "c"⟩]
        [⟨"1", "d x", "2020-01-01", "j"⟩, ⟨"2", "y d", "2020-01-01", "j"⟩] .pubmed) "d"
        = some e ∧ ¬ (e.journal.map jmPair).Nodup := by
  constructor
  · intro k e hget
    rcases fm_provenance pubs pt drugs [] k e hget with h | h
    · obtain ⟨dr, _, _, he⟩ := h
      refine ⟨(pubs.filter (fun p => pyContains p.title dr.drug)).map mkMention,
        by rw [he]; cases pt <;> rfl, ?_⟩
      rw [he]
      have hj : (entryFor dr pubs pt).journal
          = (pubs.filter (fun p => pyContains p.title dr.drug)).map mkJournalMention := by
        cases pt <;> rfl
      rw [hj, List.map_map]
      rfl
    · exact absurd h (by simp [dictGet?])
  · refine ⟨entryFor ⟨"d", "c"⟩
      [⟨"1", "d x", "2020-01-01", "j"⟩, ⟨"2", "y d", "2020-01-01", "j"⟩] .pubmed,
      by decide, by decide⟩

/-- C9 (witness): the projection equation, instantiated on a concrete graph
and drug. -/
theorem journal_projection_spec_witness :
    ∃ ms, (entryFor ⟨"drug a", "a01"⟩
        [⟨"1", "study on drug a", "2024-01-01", "journal a"⟩] .pubmed).mentionsAt .pubmed
        = some ms ∧
      (entryFor ⟨"drug a", "a01"⟩
        [⟨"1", "study on drug a", "2024-01-01", "journal a"⟩] .pubmed).journal
        = ms.map (fun m => (⟨m.date_mention, m.journal⟩ : JournalMention)) := by
  exact (journal_projection_spec [⟨"drug a", "a01"⟩]
    [⟨"1", "study on drug a", "2024-01-01", "journal a"⟩] .pubmed).1 "drug a"
    (entryFor ⟨"drug a", "a01"⟩
      [⟨"1", "study on drug a", "2024-01-01", "journal a"⟩] .pubmed) (by decide)

/-- C2: merging two per-source graphs built over the same drug table
succeeds, and every drug entry of the merged graph has a `journal` list that
is the concatenation of `graph_a`'s then `graph_b`'s journal entries with
repeats of an already-seen `(date_mention, journal)` pair skipped
(first-seen order), hence contains no two elements with equal pairs. -/
theorem merge_journal_dedup_spec (drugs : List DrugRow) (pa pb : List MRow)
    (pt1 pt2 : PubType) :
    ∃ m d1', merge_dicts (find_mentions_in_publications drugs pa pt1)
        (find_mentions_in_publications drugs pb pt2) = .ok (m, d1') ∧
      ∀ k e, dictGet? m k = some e →
        ∃ ea eb, dictGet? (find_mentions_in_publications drugs pa pt1) k = some ea ∧
          dictGet? (find_mentions_in_publications drugs pb pt2) k = some eb ∧
          e.journal = dedupJournalLoop [] (ea.journal ++ eb.journal) ∧
          (e.journal.map jmPair).Nodup := by
  have hmemkeys : ∀ (ps : List MRow) (pt : PubType) (k : String),
      k ∈ dictKeys (find_mentions_in_publications drugs ps pt) ↔
        ∃ dr ∈ drugs, dr.drug = k := by
    intro ps pt k
    rw [show find_mentions_in_publications drugs ps pt
        = drugs.foldl (fun a dr => dictAssign a dr.drug (entryFor dr ps pt)) [] from rfl,
      fm_mem_keys]
    simp
  obtain ⟨m, d1', hok⟩ := merge_loop_ok (find_mentions_in_publications drugs pb pt2)
    (find_mentions_in_publications drugs pa pt1)
    (find_mentions_in_publications drugs pa pt1)
    (fun p hp => by
      rw [hmemkeys pa pt1]
      rw [← hmemkeys pb pt2 p.1]
      exact List.mem_map_of_mem (fun q => q.1) hp)
  refine ⟨m, d1', hok, ?_⟩
  intro k e hget
  have hkm : k ∈ dictKeys m := (dictGet?_isSome_iff m k).mp (by simp [hget])
  have hka : k ∈ dictKeys (find_mentions_in_publications drugs pa pt1) := by
    rw [← merge_loop_keys _ _ _ _ _ hok]
    exact hkm
  have hkb : k ∈ dictKeys (find_mentions_in_publications drugs pb pt2) := by
    rw [hmemkeys pb pt2]
    exact (hmemkeys pa pt1 k).mp hka
  obtain ⟨ea, hea⟩ := Option.isSome_iff_exists.mp ((dictGet?_isSome_iff _ _).mpr hka)
  obtain ⟨eb, heb⟩ := Option.isSome_iff_exists.mp ((dictGet?_isSome_iff _ _).mpr hkb)
  have hbnodup : (dictKeys (find_mentions_in_publications drugs pb pt2)).Nodup :=
    fm_keys_nodup pb pt2 drugs [] (by simp)
  have hbmem : (k, eb) ∈ find_mentions_in_publications drugs pb pt2 :=
    mem_of_dictGet?_eq_some _ k eb heb
  have hgetm : dictGet? m k = some (mergeStep ea eb) :=
    merge_loop_get (find_mentions_in_publications drugs pb pt2)
      (find_mentions_in_publications drugs pa pt1)
      (find_mentions_in_publications drugs pa pt1) m d1' k eb ea hbnodup hbmem hea hok
  have he : e = mergeStep ea eb := by
    rw [hget] at hgetm
    exact Option.some.injEq .. ▸ hgetm
  refine ⟨ea, eb, hea, heb, ?_, ?_⟩
  · rw [he, mergeStep_journal]
  · rw [he, mergeStep_journal]
    exact dedupJournalLoop_pairs_nodup _ []

/-- C2 (witness): the merge of two concrete per-source graphs over the same
drug table succeeds and its single entry's journal pairs are deduplicated. -/
theorem merge_journal_dedup_spec_witness :
    ∃ m d1', merge_dicts
        (find_mentions_in_publications [⟨"drug a", "a01"⟩]
          [⟨"1", "study on drug a", "2024-01-01", "journal a"⟩] .pubmed)
        (find_mentions_in_publications [⟨"drug a", "a01"⟩]
          [⟨"ct1", "drug a trial", "2024-01-01", "journal a"⟩] .clinical_trials)
        = .ok (m, d1') := by
  obtain ⟨m, d1', hok, _⟩ := merge_journal_dedup_spec [⟨"drug a", "a01"⟩]
    [⟨"1", "study on drug a", "2024-01-01", "journal a"⟩]
    [⟨"ct1", "drug a trial", "2024-01-01", "journal a"⟩] .pubmed .clinical_trials
  exact ⟨m, d1', hok⟩

/-- C3 (counterexample): `merge_dicts` does *not* leave `graph_a` unchanged.
`dict1.copy()` is a shallow copy, so on this concrete pair the call rewrites
the entry behind `graph_a`'s key `"a"` (its `clinical_trials` is filled in),
and `graph_a` afterwards differs from `graph_a` before. -/
theorem merge_mutates_graph_a :
    merge_dicts
        [("a", ⟨"c", some [], none, [⟨"2020-01-01", "j"⟩]⟩)]
        [("a", ⟨"", none, some [⟨"1", "t", "2020-01-01", "j"⟩], [⟨"2020-01-01", "j"⟩]⟩)]
      = .ok ([("a", ⟨"c", some [], some [⟨"1", "t", "2020-01-01", "j"⟩],
          [⟨"2020-01-01", "j"⟩]⟩)],
          [("a", ⟨"c", some [], some [⟨"1", "t", "2020-01-01", "j"⟩],
          [⟨"2020-01-01", "j"⟩]⟩)]) ∧
    ([("a", (⟨"c", some [], some [⟨"1", "t", "2020-01-01", "j"⟩],
        [⟨"2020-01-01", "j"⟩]⟩ : Entry))] : Dict Entry)
      ≠ [("a", ⟨"c", some [], none, [⟨"2020-01-01", "j"⟩]⟩)] := by
  refine ⟨rfl, by decide⟩

/-- C3 (amended): `merge_dicts` copies `graph_a` only shallowly: the merged
entries are `graph_a`'s entry objects mutated in place, so after a successful
call `graph_a`'s mapping is *equal to the merged result* (same keys as
before, entries rewritten), rather than unchanged. -/
theorem merge_shallow_copy_spec (d1 d2 m d1' : Dict Entry)
    (h : merge_dicts d1 d2 = .ok (m, d1')) :
    d1' = m ∧ dictKeys d1' = dictKeys d1 := by
  have h1 : d1' = m := merge_loop_self d2 d1 m d1' h
  refine ⟨h1, ?_⟩
  rw [h1]
  exact merge_loop_keys d2 d1 d1 m d1' h

/-- C3 (witness): the amended statement at a concrete successful merge. -/
theorem merge_shallow_copy_spec_witness :
    merge_dicts [("a", ⟨"c", some [], none, []⟩)] [("a", ⟨"", none, none, []⟩)]
      = .ok ([("a", ⟨"c", some [], none, []⟩)], [("a", ⟨"c", some [], none, []⟩)]) ∧
    ([("a", (⟨"c", some [], none, []⟩ : Entry))] : Dict Entry)
      = [("a", ⟨"c", some [], none, []⟩)] ∧
    dictKeys ([("a", (⟨"c", some [], none, []⟩ : Entry))] : Dict Entry)
      = dictKeys [("a", (⟨"c", some [], none, []⟩ : Entry))] := by
  refine ⟨rfl, ?_, ?_⟩
  · exact (merge_shallow_copy_spec [("a", ⟨"c", some [], none, []⟩)]
      [("a", ⟨"", none, none, []⟩)] [("a", ⟨"c", some [], none, []⟩)]
      [("a", ⟨"c", some [], none, []⟩)] rfl).1
  · exact (merge_shallow_copy_spec [("a", ⟨"c", some [], none, []⟩)]
      [("a", ⟨"", none, none, []⟩)] [("a", ⟨"c", some [], none, []⟩)]
      [("a", ⟨"c", some [], none, []⟩)] rfl).2

/-- C10: `merge_dicts` never adds a drug key that is absent from `graph_a`:
whenever `graph_b` has a key not present in `graph_a` the merge fails with a
`KeyError` (`.error`), and when it succeeds the merged key set is exactly
`graph_a`'s. -/
theorem merge_missing_key_spec (d1 d2 : Dict Entry) :
    ((∃ k, k ∈ dictKeys d2 ∧ k ∉ dictKeys d1) →
      ∃ k', merge_dicts d1 d2 = .error k') ∧
    (∀ m d1', merge_dicts d1 d2 = .ok (m, d1') → dictKeys m = dictKeys d1) := by
  constructor
  · rintro ⟨k, hk2, hk1⟩
    obtain ⟨p, hp, hpk⟩ := List.mem_map.mp hk2
    exact merge_loop_error d2 d1 d1 ⟨p, hp, by rw [hpk]; exact hk1⟩
  · intro m d1' h
    exact merge_loop_keys d2 d1 d1 m d1' h

/-- C10 (witness): merging into an empty `graph_a` a graph with the new key
`"x"` fails with a `KeyError` naming that key. -/
theorem merge_missing_key_spec_witness :
    ∃ k', merge_dicts ([] : Dict Entry) [("x", ⟨"c", none, none, []⟩)]
      = .error k' := by
  exact (merge_missing_key_spec [] [("x", ⟨"c", none, none, []⟩)]).1
    ⟨"x", by decide, by decide⟩

end ServierPipeline
